import Mathlib

/-!
Shallow embedding of the nihonify library (src/lib.rs): resolution of a unix
timestamp to a Japanese era (nengou) record, formatting of a date as a nengou
string with fullwidth numerals, and detection of Japanese script.

The static era table `SORTED_ERAS` (declared in the `eras` module, whose file
is not among the sources) is modelled as an explicit `List Era` parameter of
each operation; theorems assume the invariants the specification states for
the real table (non-empty, sorted strictly ascending by `started_at`,
contiguous spans, exactly one open-ended record which is last).
-/

/-- The ten historical-period tags (`enum Jidai` in src/lib.rs). -/
inductive Jidai where
  | Asuka
  | Nara
  | Heian
  | Kamakura
  | Nanbokuchou
  | Sengoku
  | Muromachi
  | AzuchiMomoyama
  | Edo
  | Modern
  deriving DecidableEq

/-- One era record (`struct Era` in src/lib.rs). `started_at` is a unix
timestamp in seconds (possibly negative), inclusive; `ended_at` is exclusive,
`none` meaning the era is still current. -/
structure Era where
  kanji : Option String
  romaji : Option String
  jidai : Jidai
  started_at : Int
  ended_at : Option Int
  deriving DecidableEq

/-- The `for era in SORTED_ERAS` loop body of `Era::from_unix_epoch`:
`match (era.started_at < unix_epoch, era.ended_at)` with arms
`(false, _) => continue`, `(_, None) => return Some(era)`,
`(true, Some(ended_at)) => if unix_epoch < ended_at { return Some(era) }`. -/
def scanEras : List Era → Int → Option Era
  | [], _ => none
  | era :: rest, unix_epoch =>
    if era.started_at < unix_epoch then
      match era.ended_at with
      | none => some era
      | some ended_at =>
        if unix_epoch < ended_at then some era else scanEras rest unix_epoch
    else
      scanEras rest unix_epoch

/-- `Era::from_unix_epoch` from src/lib.rs: return `None` when the timestamp
precedes the first record's `started_at`, otherwise linearly scan the table.
(The Rust code indexes `SORTED_ERAS[0]`, which would panic on an empty table;
the real table is non-empty, and the empty case here returns `none`.) -/
def Era.from_unix_epoch (table : List Era) (unix_epoch : Int) : Option Era :=
  match table with
  | [] => none
  | first :: _ =>
    if unix_epoch < first.started_at then none
    else scanEras table unix_epoch

/-- A UTC datetime, abstracted to the three observations src/lib.rs makes of a
`DateTime<Utc>`: its `.timestamp()` (whole seconds), `.month()` and `.day()`. -/
structure UtcDate where
  timestamp : Int
  month : Nat
  day : Nat
  deriving DecidableEq

/-- `Era::from_datetime` from src/lib.rs: resolve via the date's timestamp. -/
def Era.from_datetime (table : List Era) (datetime : UtcDate) : Option Era :=
  Era.from_unix_epoch table datetime.timestamp

/-- Strictly ascending `started_at` along the table (adjacent check). -/
def sortedByStart : List Era → Bool
  | [] => true
  | [_] => true
  | a :: b :: rest =>
    decide (a.started_at < b.started_at) && sortedByStart (b :: rest)

/-- Contiguous spans: each record's `ended_at` is the next one's `started_at`. -/
def contiguousSpans : List Era → Bool
  | [] => true
  | [_] => true
  | a :: b :: rest =>
    (a.ended_at == some b.started_at) && contiguousSpans (b :: rest)

/-- The table is non-empty, every record but the last is bounded, and the last
record is open-ended (`ended_at = none`). -/
def openEndedLast : List Era → Bool
  | [] => false
  | [e] => e.ended_at.isNone
  | e :: b :: rest => e.ended_at.isSome && openEndedLast (b :: rest)

/-- The invariants the specification states for `SORTED_ERAS`. -/
def tableInvariants (table : List Era) : Prop :=
  sortedByStart table = true ∧ contiguousSpans table = true ∧
    openEndedLast table = true

instance tableInvariantsDecidable (table : List Era) :
    Decidable (tableInvariants table) :=
  inferInstanceAs (Decidable (_ ∧ _ ∧ _))

/-- A two-record table satisfying all the invariants, used to evaluate the
resolver at concrete inputs: a bounded era spanning [0, 10) followed by the
open-ended current era starting at 10. -/
def eraA : Era := ⟨some "甲", some "a", Jidai.Modern, 0, some 10⟩

/-- The open-ended second record of the demonstration table. -/
def eraB : Era := ⟨some "乙", some "b", Jidai.Modern, 10, none⟩

/-- The demonstration table `[eraA, eraB]`. -/
def demoTable : List Era := [eraA, eraB]

/-- A three-record table satisfying the invariants: [0, 10), [10, 20), and the
open-ended era starting at 20. -/
def eraM : Era := ⟨some "乙", some "b", Jidai.Modern, 10, some 20⟩

/-- The open-ended third record of the three-record demonstration table. -/
def eraC : Era := ⟨some "丙", some "c", Jidai.Modern, 20, none⟩

/-- The demonstration table `[eraA, eraM, eraC]`. -/
def demoTable3 : List Era := [eraA, eraM, eraC]

/-- The era-relative year computed by `Era::to_jp_nenkou_string`:
`1 + (date - Utc.timestamp(era.started_at, 0)).num_days() / 365`, where
chrono's `num_days` is the whole-second difference divided by 86400 and both
Rust `i64` divisions truncate toward zero (`Int.tdiv`). -/
def eraYear (t s : Int) : Int := 1 + ((t - s).tdiv 86400).tdiv 365

/-- `char::from_u32` from the Rust standard library: `some` exactly on valid
unicode scalar values. -/
def char_from_u32 (n : Nat) : Option Char :=
  if Nat.isValidChar n then some (Char.ofNat n) else none

/-- `to_jp_intstring` from src/lib.rs: render the number in decimal and shift
every ASCII digit by 65248 slots into the fullwidth digit block. -/
def to_jp_intstring (num : Nat) : String :=
  String.mk ((Nat.toDigits 10 num).map (fun c => Char.ofNat (c.toNat + 65248)))

/-- The digit-shifting `.map(|c| char::from_u32(c as u32 + 65248).unwrap())`
of `to_jp_intstring` with the `unwrap` made explicit: `none` models a panic. -/
def jpDigitsChecked : List Char → Option (List Char)
  | [] => some []
  | c :: cs =>
    (char_from_u32 (c.toNat + 65248)).bind (fun d =>
      (jpDigitsChecked cs).map (fun ds => d :: ds))

/-- `to_jp_intstring` with the `unwrap` made explicit (`none` models a panic). -/
def to_jp_intstring_checked (num : Nat) : Option String :=
  (jpDigitsChecked (Nat.toDigits 10 num)).map String.mk

/-- Rust's `i64 -> u32` `try_into`: `some` exactly when the value fits. -/
def try_into_u32 (v : Int) : Option Nat :=
  if 0 ≤ v ∧ v < 4294967296 then some v.toNat else none

/-- `Era::to_jp_nenkou_string` from src/lib.rs: resolve the date's era, then
format `{kanji}{year}年{month}月{day}日` with fullwidth numerals, the year
being `eraYear`. The two `unwrap`s of the Rust code are total here; the
checked variant below models their panics. -/
def Era.to_jp_nenkou_string (table : List Era) (date : UtcDate) :
    Option String :=
  match Era.from_datetime table date with
  | none => none
  | some era =>
    match era.kanji with
    | none => none
    | some kanji =>
      some (kanji ++ to_jp_intstring (eraYear date.timestamp era.started_at).toNat
        ++ "年" ++ to_jp_intstring date.month ++ "月"
        ++ to_jp_intstring date.day ++ "日")

/-- `Era::to_jp_nenkou_string` with both `unwrap`s made explicit: the outer
`none` models a panic (of `try_into().unwrap()` on the era year or of
`char::from_u32(..).unwrap()` inside `to_jp_intstring`), while `some r`
models a normal return of `r`. -/
def to_jp_nenkou_string_checked (table : List Era) (date : UtcDate) :
    Option (Option String) :=
  match Era.from_datetime table date with
  | none => some none
  | some era =>
    match era.kanji with
    | none => some none
    | some kanji =>
      match try_into_u32 (eraYear date.timestamp era.started_at) with
      | none => none
      | some y =>
        match to_jp_intstring_checked y, to_jp_intstring_checked date.month,
            to_jp_intstring_checked date.day with
        | some ys, some ms, some ds =>
          some (some (kanji ++ ys ++ "年" ++ ms ++ "月" ++ ds ++ "日"))
        | _, _, _ => none

/-- The loop of `is_jp` from src/lib.rs: return true on the first character
in the Hiragana (U+3040–U+309F), Katakana (U+30A0–U+30FF) or Katakana
phonetic extension (U+31F0–U+31FF) blocks. -/
def is_jp_chars : List Char → Bool
  | [] => false
  | c :: rest =>
    if (0x3040 ≤ c.toNat ∧ c.toNat ≤ 0x309F) ∨
        (0x30A0 ≤ c.toNat ∧ c.toNat ≤ 0x30FF) ∨
        (0x31F0 ≤ c.toNat ∧ c.toNat ≤ 0x31FF) then true
    else is_jp_chars rest

/-- `is_jp` from src/lib.rs. -/
def is_jp (s : String) : Bool := is_jp_chars s.data

/-- Smallest timestamp representable by a chrono `DateTime<Utc>`
(`-262144-01-01T00:00:00Z`, chrono 0.4's `NaiveDate::MIN`). -/
def chronoMinTimestamp : Int := -8334632851200

/-- Largest whole-second timestamp representable by a chrono `DateTime<Utc>`
(`262143-12-31T23:59:59Z`, chrono 0.4's `NaiveDate::MAX`). -/
def chronoMaxTimestamp : Int := 8210298412799

/-- The current open-ended era of the real table, with the start instant
2019-05-01T00:00:00Z the specification's test values pin down. -/
def eraReiwa : Era := ⟨some "令和", some "reiwa", Jidai.Modern, 1556668800, none⟩

/-- A one-record table holding the current era. -/
def reiwaTable : List Era := [eraReiwa]

/-- 2021-11-12T22:10:57Z, one of the specification's end-to-end dates. -/
def date20211112 : UtcDate := ⟨1636755057, 11, 12⟩

theorem sortedByStart_pairwise :
    ∀ l : List Era, sortedByStart l = true →
      List.Pairwise (fun a b : Era => a.started_at < b.started_at) l
  | [], _ => List.Pairwise.nil
  | [a], _ => by simp
  | a :: b :: rest, h => by
    rw [sortedByStart, Bool.and_eq_true, decide_eq_true_iff] at h
    have tail := sortedByStart_pairwise (b :: rest) h.2
    refine List.pairwise_cons.mpr ⟨?_, tail⟩
    intro x hx
    rcases List.mem_cons.mp hx with hxb | hxr
    · exact hxb ▸ h.1
    · exact lt_trans h.1 ((List.pairwise_cons.mp tail).1 x hxr)

theorem contiguousSpans_chain :
    ∀ l : List Era, contiguousSpans l = true →
      List.Chain' (fun a b : Era => a.ended_at = some b.started_at) l
  | [], _ => List.chain'_nil
  | [a], _ => List.chain'_singleton a
  | a :: b :: rest, h => by
    rw [contiguousSpans, Bool.and_eq_true, beq_iff_eq] at h
    exact List.chain'_cons.mpr ⟨h.1, contiguousSpans_chain (b :: rest) h.2⟩

theorem scanEras_sound :
    ∀ (l : List Era) (t : Int) (era : Era), scanEras l t = some era →
      era.started_at < t ∧ ∀ v, era.ended_at = some v → t < v := by
  intro l
  induction l with
  | nil => intro t era h; simp [scanEras] at h
  | cons e rest ih =>
    intro t era h
    rw [scanEras] at h
    split at h
    next hs =>
      split at h
      next he =>
        cases h
        exact ⟨hs, fun v hv => by rw [he] at hv; cases hv⟩
      next w he =>
        split at h
        next ht =>
          cases h
          refine ⟨hs, fun v hv => ?_⟩
          rw [he] at hv
          cases hv
          exact ht
        next ht => exact ih t era h
    next hs => exact ih t era h

theorem from_unix_epoch_sound_aux (table : List Era) (t : Int) (era : Era)
    (h : Era.from_unix_epoch table t = some era) :
    era.started_at < t ∧ ∀ v, era.ended_at = some v → t < v := by
  cases table with
  | nil => simp [Era.from_unix_epoch] at h
  | cons first rest =>
    rw [Era.from_unix_epoch] at h
    by_cases hg : t < first.started_at
    · rw [if_pos hg] at h
      cases h
    · rw [if_neg hg] at h
      exact scanEras_sound (first :: rest) t era h

/-- C5: whenever `Era::from_unix_epoch` returns `Some(era)`, the record
satisfies `era.started_at < t` strictly, and `t < e` strictly whenever
`era.ended_at = Some(e)`; for every table and every timestamp, with no
precondition on the table. -/
theorem from_unix_epoch_mem_span (table : List Era) (t : Int) (era : Era)
    (h : Era.from_unix_epoch table t = some era) :
    era.started_at < t ∧ ∀ v, era.ended_at = some v → t < v :=
  from_unix_epoch_sound_aux table t era h

/-- Witness for C5 at the demonstration table and timestamp 5. -/
theorem from_unix_epoch_mem_span_witness :
    eraA.started_at < 5 ∧ ∀ v, eraA.ended_at = some v → (5 : Int) < v :=
  from_unix_epoch_mem_span demoTable 5 eraA rfl

/-- C3: every timestamp strictly below the first record's `started_at`
resolves to `none`; in particular `started_at - 1` resolves to `none`, and
`started_at + 1` resolves to the first record (the first era of the real
table spans several years, reflected by the hypothesis that its span is
longer than one second). -/
theorem from_unix_epoch_before_first (first : Era) (rest : List Era)
    (hspan : ∀ v, first.ended_at = some v → first.started_at + 1 < v) :
    (∀ t : Int, t < first.started_at →
      Era.from_unix_epoch (first :: rest) t = none) ∧
    Era.from_unix_epoch (first :: rest) (first.started_at - 1) = none ∧
    Era.from_unix_epoch (first :: rest) (first.started_at + 1) = some first := by
  have hbefore : ∀ t : Int, t < first.started_at →
      Era.from_unix_epoch (first :: rest) t = none := by
    intro t ht
    rw [Era.from_unix_epoch, if_pos ht]
  refine ⟨hbefore, hbefore _ (by omega), ?_⟩
  rw [Era.from_unix_epoch, if_neg (by omega)]
  rw [scanEras, if_pos (by omega)]
  split
  next => rfl
  next v he => rw [if_pos (hspan v he)]

/-- Witness for C3 at a one-record table whose single era is open-ended. -/
theorem from_unix_epoch_before_first_witness :
    Era.from_unix_epoch [eraB] 9 = none ∧
      Era.from_unix_epoch [eraB] 11 = some eraB := by
  have h := from_unix_epoch_before_first eraB []
    (fun v hv => by simp [eraB] at hv)
  exact ⟨h.2.1, h.2.2⟩

theorem scanEras_covers :
    ∀ (e : Era) (rest : List Era) (t : Int),
      contiguousSpans (e :: rest) = true → openEndedLast (e :: rest) = true →
      (∀ x ∈ e :: rest, x.started_at ≠ t) → e.started_at ≤ t →
      ∃ era, scanEras (e :: rest) t = some era
  | e, [], t, _, hopen, hne, hle => by
    have hlt : e.started_at < t := lt_of_le_of_ne hle (hne e (by simp))
    simp only [openEndedLast] at hopen
    have hnone : e.ended_at = none := Option.isNone_iff_eq_none.mp hopen
    exact ⟨e, by rw [scanEras, if_pos hlt]; simp only [hnone]⟩
  | e, b :: rest, t, hcont, hopen, hne, hle => by
    have hlt : e.started_at < t := lt_of_le_of_ne hle (hne e (by simp))
    rw [contiguousSpans, Bool.and_eq_true, beq_iff_eq] at hcont
    rw [openEndedLast, Bool.and_eq_true] at hopen
    by_cases ht : t < b.started_at
    · exact ⟨e, by rw [scanEras, if_pos hlt]; simp only [hcont.1]
                   rw [if_pos ht]⟩
    · have hble : b.started_at ≤ t := le_of_not_lt ht
      obtain ⟨era, hera⟩ := scanEras_covers b rest t hcont.2 hopen.2
        (fun x hx => hne x (List.mem_cons_of_mem e hx)) hble
      refine ⟨era, ?_⟩
      rw [scanEras, if_pos hlt]
      simp only [hcont.1]
      rw [if_neg ht]
      exact hera

/-- C1 counterexample: on a table satisfying every invariant, the timestamp
exactly equal to the first record's `started_at` (which the claim includes,
being `≥` it) resolves to `none`, not to an era. -/
theorem from_unix_epoch_at_first_start_counterexample :
    tableInvariants demoTable ∧ eraA.started_at ≤ 0 ∧
      Era.from_unix_epoch demoTable 0 = none :=
  ⟨by decide, by decide, rfl⟩

/-- C1 amended: for a table satisfying the invariants and a timestamp `t` at
or after the first record's `started_at` that is NOT exactly equal to any
record's `started_at`, the resolver returns exactly one era, whose span
contains `t` strictly: `era.started_at < t`, and `t < e` whenever
`era.ended_at = some e`. -/
theorem from_unix_epoch_covers (first : Era) (rest : List Era) (t : Int)
    (hinv : tableInvariants (first :: rest)) (hge : first.started_at ≤ t)
    (hne : ∀ e ∈ first :: rest, e.started_at ≠ t) :
    ∃ era, Era.from_unix_epoch (first :: rest) t = some era ∧
      era.started_at < t ∧ ∀ v, era.ended_at = some v → t < v := by
  obtain ⟨_, hcont, hopen⟩ := hinv
  obtain ⟨era, hera⟩ := scanEras_covers first rest t hcont hopen hne hge
  refine ⟨era, ?_, scanEras_sound _ _ _ hera⟩
  rw [Era.from_unix_epoch, if_neg (not_lt.mpr hge)]
  exact hera

/-- Witness for the amended C1 at timestamp 5 inside the first span. -/
theorem from_unix_epoch_covers_witness :
    ∃ era, Era.from_unix_epoch demoTable 5 = some era ∧
      era.started_at < 5 ∧ ∀ v, era.ended_at = some v → (5 : Int) < v :=
  from_unix_epoch_covers eraA [eraB] 5 (by decide) (by decide) (by decide)

theorem scanEras_none :
    ∀ (l : List Era) (t : Int),
      (∀ e ∈ l, e.started_at < t → ∃ v, e.ended_at = some v ∧ v ≤ t) →
      scanEras l t = none := by
  intro l
  induction l with
  | nil => intro t _; rfl
  | cons e rest ih =>
    intro t h
    rw [scanEras]
    by_cases hs : e.started_at < t
    · rw [if_pos hs]
      obtain ⟨v, hv, hvle⟩ := h e (by simp) hs
      simp only [hv]
      rw [if_neg (not_lt.mpr hvle)]
      exact ih t (fun x hx => h x (by simp [hx]))
    · rw [if_neg hs]
      exact ih t (fun x hx => h x (by simp [hx]))

/-- C2 counterexample: on a table satisfying every invariant, the timestamp
exactly equal to the second record's `started_at` resolves to `none` — not,
as the claim states, to the previous record `eraA`. -/
theorem from_unix_epoch_at_start_counterexample :
    tableInvariants demoTable ∧ eraB.started_at = 10 ∧
      Era.from_unix_epoch demoTable 10 = none ∧
      Era.from_unix_epoch demoTable 10 ≠ some eraA :=
  ⟨by decide, rfl, rfl, by decide⟩

/-- C2 amended: on a table satisfying the invariants, a query timestamp
exactly equal to the `started_at` of any record other than the first resolves
to `none`: the strict comparison excludes the new era, and the previous era
fails its exclusive upper bound at that same instant. -/
theorem from_unix_epoch_at_start_none (table : List Era)
    (hinv : tableInvariants table) (i : Nat) (h1 : 1 ≤ i)
    (h2 : i < table.length) :
    Era.from_unix_epoch table (table.get ⟨i, h2⟩).started_at = none := by
  obtain ⟨hsort, hcont, _⟩ := hinv
  have hpair := List.pairwise_iff_get.mp (sortedByStart_pairwise table hsort)
  have hchain := List.chain'_iff_get.mp (contiguousSpans_chain table hcont)
  have hnone : scanEras table (table.get ⟨i, h2⟩).started_at = none := by
    apply scanEras_none
    intro e he hs
    obtain ⟨j, hj⟩ := List.mem_iff_get.mp he
    have hji : (j : Nat) < i := by
      by_contra hge
      push_neg at hge
      rcases eq_or_lt_of_le hge with heq | hlt
      · have hsame : table.get j = table.get ⟨i, h2⟩ := by
          congr 1
          exact Fin.ext heq.symm
        rw [hj] at hsame
        rw [hsame] at hs
        exact lt_irrefl _ hs
      · have hlt2 := hpair ⟨i, h2⟩ j hlt
        rw [hj] at hlt2
        exact absurd hs (not_lt.mpr (le_of_lt hlt2))
    have hjlen : (j : Nat) < table.length - 1 := by
      have := j.isLt
      omega
    have hcontj := hchain (j : Nat) hjlen
    refine ⟨(table.get ⟨(j : Nat) + 1, by omega⟩).started_at, ?_, ?_⟩
    · rw [← hj]
      exact hcontj
    · rcases eq_or_lt_of_le (Nat.succ_le_of_lt hji) with heq | hlt
      · have hsame : table.get ⟨(j : Nat) + 1, by omega⟩ = table.get ⟨i, h2⟩ := by
          congr 1
          exact Fin.ext heq
        rw [hsame]
      · exact le_of_lt (hpair ⟨(j : Nat) + 1, by omega⟩ ⟨i, h2⟩ hlt)
  cases table with
  | nil => exact absurd h2 (by simp)
  | cons first rest =>
    rw [Era.from_unix_epoch]
    have hfirst : first.started_at <
        ((first :: rest).get ⟨i, h2⟩).started_at := by
      have := hpair ⟨0, by omega⟩ ⟨i, h2⟩ (Fin.mk_lt_mk.mpr h1)
      exact this
    rw [if_neg (not_lt.mpr (le_of_lt hfirst))]
    exact hnone

/-- Witness for the amended C2 on the three-record table at the third
record's start instant (timestamp 20). -/
theorem from_unix_epoch_at_start_none_witness :
    Era.from_unix_epoch demoTable3 20 = none :=
  from_unix_epoch_at_start_none demoTable3 (by decide) 2 (by decide) (by decide)

theorem sorted_head_le_getLast :
    ∀ (e : Era) (l : List Era) (last : Era), sortedByStart (e :: l) = true →
      (e :: l).getLast? = some last → e.started_at ≤ last.started_at
  | e, [], last, _, hl => by
    have : some e = some last := hl
    cases this
    exact le_refl _
  | e, b :: l, last, hs, hl => by
    rw [List.getLast?_cons_cons] at hl
    rw [sortedByStart, Bool.and_eq_true, decide_eq_true_iff] at hs
    exact le_trans (le_of_lt hs.1) (sorted_head_le_getLast b l last hs.2 hl)

theorem openEndedLast_ended :
    ∀ (l : List Era) (last : Era), openEndedLast l = true →
      l.getLast? = some last → last.ended_at = none
  | [], _, h, _ => by cases h
  | [e], last, h, hl => by
    have heq : some e = some last := hl
    cases heq
    simpa [openEndedLast, Option.isNone_iff_eq_none] using h
  | e :: b :: l, last, h, hl => by
    rw [List.getLast?_cons_cons] at hl
    rw [openEndedLast, Bool.and_eq_true] at h
    exact openEndedLast_ended (b :: l) last h.2 hl

theorem scanEras_last_open :
    ∀ (l : List Era) (last : Era) (t : Int), sortedByStart l = true →
      openEndedLast l = true → l.getLast? = some last →
      (∀ e ∈ l, ∀ v, e.ended_at = some v → v ≤ last.started_at) →
      last.started_at < t → scanEras l t = some last
  | [], last, t, _, _, hl, _, _ => by cases hl
  | [e], last, t, _, hopen, hl, _, hlt => by
    have heq : some e = some last := hl
    cases heq
    have hend : e.ended_at = none := by
      simpa [openEndedLast, Option.isNone_iff_eq_none] using hopen
    rw [scanEras, if_pos hlt]
    simp only [hend]
  | e :: b :: l, last, t, hs, hopen, hl, hbound, hlt => by
    rw [List.getLast?_cons_cons] at hl
    rw [sortedByStart, Bool.and_eq_true, decide_eq_true_iff] at hs
    rw [openEndedLast, Bool.and_eq_true] at hopen
    obtain ⟨v, hv⟩ := Option.isSome_iff_exists.mp hopen.1
    have hble : b.started_at ≤ last.started_at :=
      sorted_head_le_getLast b l last hs.2 hl
    have hblt : b.started_at < t := lt_of_le_of_lt hble hlt
    have hvle : v ≤ last.started_at := hbound e (by simp) v hv
    rw [scanEras, if_pos (lt_trans hs.1 hblt)]
    simp only [hv]
    rw [if_neg (not_lt.mpr (le_of_lt (lt_of_le_of_lt hvle hlt)))]
    exact scanEras_last_open (b :: l) last t hs.2 hopen.2 hl
      (fun x hx => hbound x (List.mem_cons_of_mem e hx)) hlt

/-- C4: on a table sorted ascending whose unique open-ended record is last
and in which every bounded record's `ended_at` is at most the open record's
`started_at`, every timestamp strictly after the open-ended record's
`started_at` resolves to that record (the fallback for timestamps no bounded
era matches). -/
theorem from_unix_epoch_open_fallback (table : List Era) (last : Era) (t : Int)
    (hsort : sortedByStart table = true) (hopen : openEndedLast table = true)
    (hlast : table.getLast? = some last)
    (hbound : ∀ e ∈ table, ∀ v, e.ended_at = some v → v ≤ last.started_at)
    (ht : last.started_at < t) :
    Era.from_unix_epoch table t = some last := by
  cases table with
  | nil => cases hlast
  | cons first rest =>
    have hfle : first.started_at ≤ last.started_at :=
      sorted_head_le_getLast first rest last hsort hlast
    rw [Era.from_unix_epoch,
      if_neg (not_lt.mpr (le_of_lt (lt_of_le_of_lt hfle ht)))]
    exact scanEras_last_open (first :: rest) last t hsort hopen hlast hbound ht

/-- Witness for C4 at a far-future timestamp on the demonstration table. -/
theorem from_unix_epoch_open_fallback_witness :
    Era.from_unix_epoch demoTable 99 = some eraB := by
  refine from_unix_epoch_open_fallback demoTable eraB 99 (by decide)
    (by decide) rfl ?_ (by decide)
  intro e he v hv
  have he2 : e = eraA ∨ e = eraB := by simpa [demoTable] using he
  rcases he2 with rfl | rfl
  · simp [eraA] at hv
    simp [eraB]
    omega
  · simp [eraB] at hv

theorem scanEras_mem :
    ∀ (l : List Era) (t : Int) (era : Era), scanEras l t = some era →
      era ∈ l := by
  intro l
  induction l with
  | nil => intro t era h; cases h
  | cons e rest ih =>
    intro t era h
    rw [scanEras] at h
    split at h
    next =>
      split at h
      next => cases h; exact List.mem_cons_self _ _
      next w he =>
        split at h
        next => cases h; exact List.mem_cons_self _ _
        next => exact List.mem_cons_of_mem e (ih t era h)
    next => exact List.mem_cons_of_mem e (ih t era h)

theorem from_unix_epoch_mem_aux (table : List Era) (t : Int) (era : Era)
    (h : Era.from_unix_epoch table t = some era) : era ∈ table := by
  cases table with
  | nil => simp [Era.from_unix_epoch] at h
  | cons first rest =>
    rw [Era.from_unix_epoch] at h
    split at h
    next => cases h
    next => exact scanEras_mem (first :: rest) t era h

theorem digitChar_toNat (m : Nat) (h : m < 10) :
    (Nat.digitChar m).toNat = 48 + m := by
  interval_cases m <;> rfl

theorem toDigitsCore_digits :
    ∀ (fuel n : Nat) (acc : List Char),
      (∀ c ∈ acc, 48 ≤ c.toNat ∧ c.toNat ≤ 57) →
      ∀ c ∈ Nat.toDigitsCore 10 fuel n acc, 48 ≤ c.toNat ∧ c.toNat ≤ 57 := by
  intro fuel
  induction fuel with
  | zero =>
    intro n acc hacc c hc
    rw [Nat.toDigitsCore] at hc
    exact hacc c hc
  | succ fuel ih =>
    intro n acc hacc c hc
    rw [Nat.toDigitsCore] at hc
    have hd : 48 ≤ ((n % 10).digitChar).toNat ∧
        ((n % 10).digitChar).toNat ≤ 57 := by
      have h10 : n % 10 < 10 := Nat.mod_lt _ (by omega)
      rw [digitChar_toNat (n % 10) h10]
      omega
    by_cases h0 : n / 10 = 0
    · rw [if_pos h0] at hc
      rcases List.mem_cons.mp hc with h | h
      · exact h ▸ hd
      · exact hacc c h
    · rw [if_neg h0] at hc
      refine ih (n / 10) ((n % 10).digitChar :: acc) ?_ c hc
      intro x hx
      rcases List.mem_cons.mp hx with h | h
      · exact h ▸ hd
      · exact hacc x h

theorem toDigits_digits (n : Nat) :
    ∀ c ∈ Nat.toDigits 10 n, 48 ≤ c.toNat ∧ c.toNat ≤ 57 := by
  intro c hc
  rw [Nat.toDigits] at hc
  exact toDigitsCore_digits (n + 1) n [] (by intro x hx; cases hx) c hc

theorem charOfNat_toNat (m : Nat) (h : Nat.isValidChar m) :
    (Char.ofNat m).toNat = m := by
  rw [Char.ofNat, dif_pos h]
  rfl

theorem char_from_u32_digit (c : Char) (h : 48 ≤ c.toNat ∧ c.toNat ≤ 57) :
    char_from_u32 (c.toNat + 65248) = some (Char.ofNat (c.toNat + 65248)) := by
  rw [char_from_u32,
    if_pos (show Nat.isValidChar (c.toNat + 65248) from
      Or.inr ⟨by omega, by omega⟩)]

theorem jpDigitsChecked_eq :
    ∀ l : List Char, (∀ c ∈ l, 48 ≤ c.toNat ∧ c.toNat ≤ 57) →
      jpDigitsChecked l =
        some (l.map (fun c => Char.ofNat (c.toNat + 65248))) := by
  intro l
  induction l with
  | nil => intro _; rfl
  | cons c cs ih =>
    intro h
    rw [jpDigitsChecked, char_from_u32_digit c (h c (by simp)),
      ih (fun x hx => h x (by simp [hx]))]
    rfl

theorem to_jp_intstring_checked_eq (n : Nat) :
    to_jp_intstring_checked n = some (to_jp_intstring n) := by
  rw [to_jp_intstring_checked,
    jpDigitsChecked_eq (Nat.toDigits 10 n) (toDigits_digits n)]
  rfl

theorem tdiv_le_tdiv_nonneg (a b c : Int) (ha : 0 ≤ a) (hab : a ≤ b)
    (hc : 0 < c) : a.tdiv c ≤ b.tdiv c := by
  rw [Int.tdiv_eq_ediv ha (le_of_lt hc),
    Int.tdiv_eq_ediv (le_trans ha hab) (le_of_lt hc)]
  exact Int.ediv_le_ediv hc hab

theorem eraYear_bounds (t s : Int) (hst : s < t) (hmax : t ≤ chronoMaxTimestamp)
    (hmin : chronoMinTimestamp ≤ s) :
    1 ≤ eraYear t s ∧ eraYear t s < 4294967296 := by
  rw [eraYear]
  have h1 : (0 : Int) ≤ t - s := by omega
  have h2 : t - s ≤ 16544931263999 := by
    rw [chronoMaxTimestamp] at hmax
    rw [chronoMinTimestamp] at hmin
    omega
  have d1nonneg : 0 ≤ (t - s).tdiv 86400 := Int.tdiv_nonneg h1 (by omega)
  have d1le : (t - s).tdiv 86400 ≤ (16544931263999 : Int).tdiv 86400 :=
    tdiv_le_tdiv_nonneg _ _ _ h1 h2 (by omega)
  have d2nonneg : 0 ≤ ((t - s).tdiv 86400).tdiv 365 :=
    Int.tdiv_nonneg d1nonneg (by omega)
  have d2le : ((t - s).tdiv 86400).tdiv 365 ≤
      ((16544931263999 : Int).tdiv 86400).tdiv 365 :=
    tdiv_le_tdiv_nonneg _ _ _ d1nonneg d1le (by omega)
  have hval : ((16544931263999 : Int).tdiv 86400).tdiv 365 = 524636 := by decide
  constructor <;> omega

/-- C6: no core operation panics on its domain. `Era::from_unix_epoch`,
`Era::from_datetime` and `is_jp` are total functions of this embedding; the
two partial spots of the Rust code — `try_into().unwrap()` on the era year in
`Era::to_jp_nenkou_string` and `char::from_u32(..).unwrap()` in
`to_jp_intstring` — are modelled by the checked variants, whose panic branch
(`none`) is proven unreachable: the checked run returns exactly the total
function's result for every date in chrono's representable range (and every
table whose start instants are timestamps of representable dates), and the
checked digit conversion succeeds on every `u32`. -/
theorem core_no_panic (table : List Era) (date : UtcDate) (n : Nat)
    (hmax : date.timestamp ≤ chronoMaxTimestamp)
    (hmin : ∀ e ∈ table, chronoMinTimestamp ≤ e.started_at) :
    to_jp_nenkou_string_checked table date =
      some (Era.to_jp_nenkou_string table date) ∧
    to_jp_intstring_checked n = some (to_jp_intstring n) := by
  refine ⟨?_, to_jp_intstring_checked_eq n⟩
  rw [to_jp_nenkou_string_checked, Era.to_jp_nenkou_string]
  cases hera : Era.from_datetime table date with
  | none => rfl
  | some era =>
    dsimp only
    cases hk : era.kanji with
    | none => rfl
    | some kanji =>
      dsimp only
      have hs : era.started_at < date.timestamp :=
        (from_unix_epoch_sound_aux table date.timestamp era hera).1
      have hmem : era ∈ table :=
        from_unix_epoch_mem_aux table date.timestamp era hera
      have hb := eraYear_bounds date.timestamp era.started_at hs hmax
        (hmin era hmem)
      have htry : try_into_u32 (eraYear date.timestamp era.started_at) =
          some (eraYear date.timestamp era.started_at).toNat := by
        rw [try_into_u32, if_pos ⟨by omega, hb.2⟩]
      rw [htry]
      dsimp only
      rw [to_jp_intstring_checked_eq, to_jp_intstring_checked_eq,
        to_jp_intstring_checked_eq]

/-- Witness for C6 at the modelled current-era table and a concrete date. -/
theorem core_no_panic_witness :
    to_jp_nenkou_string_checked reiwaTable date20211112 =
      some (Era.to_jp_nenkou_string reiwaTable date20211112) ∧
    to_jp_intstring_checked 2021 = some (to_jp_intstring 2021) :=
  core_no_panic reiwaTable date20211112 2021 (by decide) (by decide)

/-- C7: for every date whose era resolves with a native-script name, the
nenkou string is exactly the template `{kanji}{year}年{month}月{day}日` with
fullwidth numerals, the era-relative year being
`1 + floor(floor((timestamp - started_at) / 86400) / 365)` — the fixed
365-day divisor; the second conjunct certifies that the code's
truncating divisions agree with floor division here. -/
theorem to_jp_nenkou_string_format (table : List Era) (date : UtcDate)
    (era : Era) (kanji : String)
    (hera : Era.from_unix_epoch table date.timestamp = some era)
    (hk : era.kanji = some kanji) :
    Era.to_jp_nenkou_string table date =
      some (kanji ++
        to_jp_intstring (1 + (date.timestamp - era.started_at) / 86400 / 365).toNat
        ++ "年" ++ to_jp_intstring date.month ++ "月"
        ++ to_jp_intstring date.day ++ "日") ∧
    eraYear date.timestamp era.started_at =
      1 + (date.timestamp - era.started_at) / 86400 / 365 := by
  have hs : era.started_at < date.timestamp :=
    (from_unix_epoch_sound_aux table date.timestamp era hera).1
  have hdiff : (0 : Int) ≤ date.timestamp - era.started_at := by omega
  have heq : eraYear date.timestamp era.started_at =
      1 + (date.timestamp - era.started_at) / 86400 / 365 := by
    rw [eraYear, Int.tdiv_eq_ediv hdiff (by omega),
      Int.tdiv_eq_ediv (Int.ediv_nonneg hdiff (by omega)) (by omega)]
  refine ⟨?_, heq⟩
  rw [Era.to_jp_nenkou_string]
  rw [show Era.from_datetime table date = some era from hera]
  dsimp only
  rw [hk]
  dsimp only
  rw [heq]

/-- Witness for C7: 2021-11-12 renders as Reiwa 3, matching the
specification's end-to-end expectation. -/
theorem to_jp_nenkou_string_format_witness :
    Era.to_jp_nenkou_string reiwaTable date20211112 =
      some "令和３年１１月１２日" := by
  have h := to_jp_nenkou_string_format reiwaTable date20211112 eraReiwa
    "令和" rfl rfl
  exact h.1.trans (by decide)

/-- C8: the nenkou formatter returns `none` exactly when either no era
resolves for the date's timestamp, or the resolved era has no native-script
name; both causes surface identically as `none`. -/
theorem to_jp_nenkou_string_none_iff (table : List Era) (date : UtcDate) :
    Era.to_jp_nenkou_string table date = none ↔
      Era.from_unix_epoch table date.timestamp = none ∨
        ∃ era, Era.from_unix_epoch table date.timestamp = some era ∧
          era.kanji = none := by
  rw [Era.to_jp_nenkou_string, Era.from_datetime]
  cases h : Era.from_unix_epoch table date.timestamp with
  | none => simp
  | some era =>
    dsimp only
    cases hk : era.kanji with
    | none =>
      dsimp only
      simp [hk]
    | some k =>
      dsimp only
      simp [hk]

theorem jpmap_all_shift :
    ∀ l : List Char, (∀ c ∈ l, 48 ≤ c.toNat ∧ c.toNat ≤ 57) →
      (((l.map (fun c => Char.ofNat (c.toNat + 65248))).zip l).all
        (fun p => p.1.toNat == p.2.toNat + 65248)) = true ∧
      ((l.map (fun c => Char.ofNat (c.toNat + 65248))).all
        (fun c => decide (65296 ≤ c.toNat) && decide (c.toNat ≤ 65305))) =
        true := by
  intro l
  induction l with
  | nil => intro _; exact ⟨rfl, rfl⟩
  | cons c cs ih =>
    intro h
    have hc := h c (by simp)
    have hvalid : Nat.isValidChar (c.toNat + 65248) :=
      Or.inr ⟨by omega, by omega⟩
    have htn := charOfNat_toNat (c.toNat + 65248) hvalid
    obtain ⟨ih1, ih2⟩ := ih (fun x hx => h x (by simp [hx]))
    constructor
    · simp only [List.map_cons, List.zip_cons_cons, List.all_cons, ih1,
        Bool.and_true, htn]
      simp
    · simp only [List.map_cons, List.all_cons, ih2, Bool.and_true, htn]
      simp only [Bool.and_eq_true, decide_eq_true_iff]
      omega

/-- C9: `to_jp_intstring` is total over the naturals, its output is exactly
the decimal representation of the input mapped digit-for-digit through the
+65248 shift (hence has the same character count), every output character's
codepoint is its ASCII digit's codepoint plus exactly 65248, and every
output character lies in the fullwidth digit range U+FF10–U+FF19. -/
theorem to_jp_intstring_digit_for_digit (n : Nat) :
    (to_jp_intstring n).data =
      (Nat.repr n).data.map (fun c => Char.ofNat (c.toNat + 65248)) ∧
    (to_jp_intstring n).data.length = (Nat.repr n).data.length ∧
    (((to_jp_intstring n).data.zip (Nat.repr n).data).all
      (fun p => p.1.toNat == p.2.toNat + 65248)) = true ∧
    ((to_jp_intstring n).data.all
      (fun c => decide (65296 ≤ c.toNat) && decide (c.toNat ≤ 65305))) =
      true := by
  have key := jpmap_all_shift (Nat.toDigits 10 n) (toDigits_digits n)
  exact ⟨rfl, List.length_map _ _, key.1, key.2⟩

theorem is_jp_chars_iff :
    ∀ l : List Char, is_jp_chars l = true ↔
      ∃ c ∈ l, (0x3040 ≤ c.toNat ∧ c.toNat ≤ 0x309F) ∨
        (0x30A0 ≤ c.toNat ∧ c.toNat ≤ 0x30FF) ∨
        (0x31F0 ≤ c.toNat ∧ c.toNat ≤ 0x31FF) := by
  intro l
  induction l with
  | nil => simp [is_jp_chars]
  | cons c cs ih =>
    rw [is_jp_chars]
    by_cases hc : (0x3040 ≤ c.toNat ∧ c.toNat ≤ 0x309F) ∨
        (0x30A0 ≤ c.toNat ∧ c.toNat ≤ 0x30FF) ∨
        (0x31F0 ≤ c.toNat ∧ c.toNat ≤ 0x31FF)
    · rw [if_pos hc]
      exact iff_of_true rfl ⟨c, by simp, hc⟩
    · rw [if_neg hc, ih]
      constructor
      · rintro ⟨x, hx, hprop⟩
        exact ⟨x, by simp [hx], hprop⟩
      · rintro ⟨x, hx, hprop⟩
        rcases List.mem_cons.mp hx with rfl | hx2
        · exact absurd hprop hc
        · exact ⟨x, hx2, hprop⟩

/-- C10: `is_jp` returns true exactly when some character of the string lies
in the Hiragana (U+3040–U+309F), Katakana (U+30A0–U+30FF) or Katakana
phonetic extension (U+31F0–U+31FF) blocks; in particular it returns false on
the empty string and on any string with no such character (e.g. pure
ASCII). -/
theorem is_jp_iff_exists (s : String) :
    is_jp s = true ↔ ∃ c ∈ s.data,
      (0x3040 ≤ c.toNat ∧ c.toNat ≤ 0x309F) ∨
      (0x30A0 ≤ c.toNat ∧ c.toNat ≤ 0x30FF) ∨
      (0x31F0 ≤ c.toNat ∧ c.toNat ≤ 0x31FF) :=
  is_jp_chars_iff s.data
